import Mathlib

/-!
Verification development for the dylib_hook runtime function-interception
framework (src/src/lib.rs and src/examples/block_reading/src/lib.rs).

The Rust code is shallowly embedded as explicit state passing:

* `Sys` is the thread-local state visible to the framework: the `IN_HOOK`
  thread-local boolean, plus an observation `log`.  The `log` field is pure
  instrumentation (the spec's "counting stub"): each dispatch of the hook at
  registry index `i` is recorded as `Event.hook i`, and every invocation of
  the resolved original implementation as `Event.orig`.  It never influences
  control flow or results.
* Closures such as the arguments of `with_hook_protection` become functions
  `Sys → ρ × Sys`.
* A hook handler (`fn(args..., &mut Chain) -> ret` in Rust) becomes a
  function that receives the arguments, the chain-call continuation
  (`self.call`), the current `Chain` cursor, and the state.
* `Chain.call` recurses through handler code it does not control, so it
  carries a fuel parameter; every theorem supplies sufficient fuel, and all
  runs in the theorems stay strictly below the fuel bound.
-/

namespace DylibHook

/-- Observable events of one intercepted call: dispatch of the registered
handler at registry index `i`, or an invocation of the resolved original
implementation. -/
inductive Event where
  | hook (i : Nat)
  | orig
  deriving DecidableEq, Repr

/-- Thread-local state threaded through the embedding: the `IN_HOOK`
reentrancy flag (src/src/lib.rs line 8) and the instrumentation log. -/
structure Sys where
  inHook : Bool
  log : List Event
  deriving DecidableEq, Repr

/-- Embeds `with_hook_protection` (src/src/lib.rs lines 11-26): if the flag
is already set, run the fallback `f2` with the state untouched; otherwise set
the flag, run `f`, then unconditionally clear the flag. -/
def with_hook_protection {ρ : Type} (f f2 : Sys → ρ × Sys) (s : Sys) : ρ × Sys :=
  if s.inHook then
    f2 s
  else
    let r := f { s with inHook := true }
    (r.1, { r.2 with inHook := false })

/-- Embeds `bypass_hooks` (src/src/lib.rs lines 28-39): remember the flag,
force it true for the duration of `f`, then restore the remembered value. -/
def bypass_hooks {ρ : Type} (f : Sys → ρ × Sys) (s : Sys) : ρ × Sys :=
  let was_in_hook := s.inHook
  let r := f { s with inHook := true }
  (r.1, { r.2 with inHook := was_in_hook })

/-- Embeds `disable_hooks` (src/src/lib.rs lines 41-43). -/
def disable_hooks (s : Sys) : Unit × Sys :=
  ((), { s with inHook := true })

/-- Embeds `enable_hooks` (src/src/lib.rs lines 45-47). -/
def enable_hooks (s : Sys) : Unit × Sys :=
  ((), { s with inHook := false })

/-- Embeds the per-call cursor `Chain` (src/src/lib.rs lines 87-89). -/
structure Chain where
  index : Nat
  deriving DecidableEq, Repr

/-- Embeds `Chain::new` (src/src/lib.rs lines 91-93). -/
def Chain.new : Chain := ⟨0⟩

/-- A registered hook handler, `fn($params..., &mut Chain) -> $ret` in the
source (src/src/lib.rs lines 83-85).  The handler receives the arguments, the
chain-call continuation, the chain cursor and the thread state. -/
def HookFn (α ρ : Type) : Type :=
  α → (α → Chain → Sys → ρ × Chain × Sys) → Chain → Sys → ρ × Chain × Sys

/-- Embeds `call_orig` (src/src/lib.rs lines 120-138) after symbol
resolution: `orig` is the cached `REAL` pointer's target.  Invoking it is
recorded as `Event.orig`.  The lazy `dlsym` caching itself is modelled
separately by `resolveReal` below. -/
def call_orig {α ρ : Type} (orig : α → ρ) (a : α) (s : Sys) : ρ × Sys :=
  (orig a, { s with log := s.log ++ [Event.orig] })

/-- Embeds `chain_orig` (src/src/lib.rs lines 116-118): ignores the chain
cursor and calls `call_orig`. -/
def chain_orig {α ρ : Type} (orig : α → ρ) (a : α) (c : Chain) (s : Sys) :
    ρ × Chain × Sys :=
  let r := call_orig orig a s
  (r.1, c, r.2)

/-- Embeds `Chain::call` (src/src/lib.rs lines 94-109): look up the handler
at the current index; if present, advance the cursor and invoke the handler
with the continuation; if absent, fall through to `chain_orig`.  `fuel`
bounds the recursion depth (handlers may call the continuation arbitrarily);
all theorems run strictly within their fuel. -/
def Chain.call {α ρ : Type} [Inhabited ρ] (orig : α → ρ) (hooks : List (HookFn α ρ)) :
    Nat → α → Chain → Sys → ρ × Chain × Sys
  | 0, _, c, s => (default, c, s)
  | fuel + 1, a, c, s =>
    match hooks[c.index]? with
    | some h => h a (Chain.call orig hooks fuel) ⟨c.index + 1⟩
        { s with log := s.log ++ [Event.hook c.index] }
    | none => chain_orig orig a c s

/-- Embeds `add_hook` (src/src/lib.rs lines 111-114): append to the
registry. -/
def add_hook {α ρ : Type} (hook : HookFn α ρ) (hooks : List (HookFn α ρ)) :
    List (HookFn α ρ) :=
  hooks ++ [hook]

/-- Registers a whole sequence of handlers, one `add_hook` at a time,
starting from the empty registry. -/
def registerAll {α ρ : Type} (hs : List (HookFn α ρ)) : List (HookFn α ρ) :=
  hs.foldl (fun acc h => add_hook h acc) []

/-- Embeds the exported trampoline emitted by `create_hook!`
(src/src/lib.rs lines 62-73): run the fresh chain under
`with_hook_protection`, with the direct `chain_orig` fallthrough as the
fallback. -/
def exportedTrampoline {α ρ : Type} [Inhabited ρ] (orig : α → ρ)
    (hooks : List (HookFn α ρ)) (fuel : Nat) (a : α) (s : Sys) : ρ × Sys :=
  with_hook_protection
    (fun s0 =>
      let r := Chain.call orig hooks fuel a Chain.new s0
      (r.1, r.2.2))
    (fun s0 =>
      let r := chain_orig orig a Chain.new s0
      (r.1, r.2.2))
    s

/-! Handler shapes used by the theorems.  Rust handlers are arbitrary
`fn` pointers; the theorems either quantify over fully arbitrary handlers or
over the following families, which exhibit the interaction patterns the
claims speak about. -/

/-- A handler that calls the chain continuation exactly once: it may
transform the argument (`tr`) and post-process the result (`post`), but
performs exactly one continuation call and leaves the threaded state to the
continuation. -/
def mkPass {α ρ : Type} (tr : α → α) (post : ρ → ρ) : HookFn α ρ :=
  fun a k c s =>
    let r := k (tr a) c s
    (post r.1, r.2.1, r.2.2)

/-- The identity pass-through handler (the shape of `hook1`/`hook2` in the
`multiple_hooks` test, src/src/lib.rs lines 175-183). -/
def pHook {α ρ : Type} : HookFn α ρ :=
  fun a k c s => k a c s

/-- A short-circuiting handler: returns `v` without ever calling the
continuation (the shape of `hook1` in the `early_return_hook` test,
src/src/lib.rs lines 205-208). -/
def cHook {α ρ : Type} (v : ρ) : HookFn α ρ :=
  fun _ _ c s => (v, c, s)

/-- A handler that invokes the chain continuation twice, both times with the
argument it received, threading the chain cursor and state through. -/
def callTwiceHook {α ρ : Type} : HookFn α ρ :=
  fun a k c s =>
    let r1 := k a c s
    k a r1.2.1 r1.2.2

/-- A handler whose body first calls an intercepted function (an exported
trampoline, with whatever registry `hooks2` that function has) and then
continues down its own chain — the "handler for open that itself calls open
internally" scenario. -/
def nestedCallHook {α ρ : Type} [Inhabited ρ] (orig2 : α → ρ)
    (hooks2 : List (HookFn α ρ)) (fuel2 : Nat) : HookFn α ρ :=
  fun a k c s =>
    let r0 := exportedTrampoline orig2 hooks2 fuel2 a s
    k a c r0.2

/-- Unfolding lemma for `Chain.call` when a handler is present at the
cursor. -/
theorem Chain.call_step {α ρ : Type} [Inhabited ρ] (orig : α → ρ)
    (hooks : List (HookFn α ρ)) (fuel : Nat) (a : α) (c : Chain) (s : Sys)
    (h : HookFn α ρ) (hh : hooks[c.index]? = some h) :
    Chain.call orig hooks (fuel + 1) a c s
      = h a (Chain.call orig hooks fuel) ⟨c.index + 1⟩
          { s with log := s.log ++ [Event.hook c.index] } := by
  simp [Chain.call, hh]

/-- Unfolding lemma for `Chain.call` when the cursor has moved past the last
registered hook. -/
theorem Chain.call_none {α ρ : Type} [Inhabited ρ] (orig : α → ρ)
    (hooks : List (HookFn α ρ)) (fuel : Nat) (a : α) (c : Chain) (s : Sys)
    (hh : hooks[c.index]? = none) :
    Chain.call orig hooks (fuel + 1) a c s = chain_orig orig a c s := by
  simp [Chain.call, hh]

/-- Claim C8: the direct call-original entry points `call_orig` and
`chain_orig` execute only the resolved original implementation and zero
registered handlers — neither function even consults the registry, so this
holds for every registry contents. -/
theorem call_orig_bypasses_hooks {α ρ : Type} (orig : α → ρ) (a : α)
    (c : Chain) (s : Sys) :
    call_orig orig a s = (orig a, { s with log := s.log ++ [Event.orig] }) ∧
    chain_orig orig a c s = (orig a, c, { s with log := s.log ++ [Event.orig] }) :=
  ⟨rfl, rfl⟩

/-- Claim C10: when `with_hook_protection` is entered with the flag clear,
the flag is unconditionally `false` after it returns — even when the primary
closure itself set the flag persistently via `disable_hooks`. -/
theorem protection_resets_flag {ρ : Type} (f f2 : Sys → ρ × Sys) (l : List Event) :
    (with_hook_protection f f2 ⟨false, l⟩).2.inHook = false ∧
    ∀ g : Sys → ρ × Sys,
      (with_hook_protection
          (fun s => ((g s).1, (disable_hooks (g s).2).2)) f2 ⟨false, l⟩).2.inHook = false :=
  ⟨rfl, fun _ => rfl⟩

/-- Claim C5 (counterexample): the flag does not always equal its prior
value after `with_hook_protection` returns.  Entering with the flag set runs
the fallback with the state untouched, so a fallback that itself calls
`enable_hooks` leaves the flag cleared: the call below starts with the flag
`true` and ends with it `false`. -/
theorem with_hook_protection_flag_cex :
    (with_hook_protection (fun s => ((0 : Nat), s))
        (fun s => ((0 : Nat), (enable_hooks s).2)) ⟨true, []⟩).2.inHook ≠ true := by
  decide

/-- Claim C5 (amended): the fallback runs (and the primary does not) exactly
when the flag is set at entry; entered with the flag clear, the guard sets
the flag, runs the primary, returns its result and leaves the flag `false`
(its prior value) regardless of the primary; the flag equals its prior value
after the call whenever the fallback leaves the flag as it found it — the
guard itself never changes it on that path. -/
theorem with_hook_protection_spec {ρ : Type} (f f2 : Sys → ρ × Sys) (s : Sys)
    (h2 : ∀ t, ((f2 t).2).inHook = t.inHook) :
    (s.inHook = true → with_hook_protection f f2 s = f2 s) ∧
    (s.inHook = false →
      with_hook_protection f f2 s
        = ((f { s with inHook := true }).1,
           { (f { s with inHook := true }).2 with inHook := false })) ∧
    (with_hook_protection f f2 s).2.inHook = s.inHook := by
  refine ⟨?_, ?_, ?_⟩ <;> cases hs : s.inHook <;>
    simp [with_hook_protection, hs, h2]

/-- Witness for the amended claim C5 at a concrete input. -/
theorem with_hook_protection_spec_witness :
    (with_hook_protection (fun t => ((5 : Nat), t)) (fun t => ((7 : Nat), t))
        ⟨false, []⟩).2.inHook = false :=
  (with_hook_protection_spec (fun t => ((5 : Nat), t)) (fun t => ((7 : Nat), t))
      ⟨false, []⟩ (fun _ => rfl)).2.2

/-- Claim C7: `bypass_hooks` runs its body with the flag forced `true` (so
intercepted calls inside take the already-in-hook path: instantiated with a
trampoline body, only the original runs), returns the body's result, and
restores the flag to exactly its prior value afterwards. -/
theorem bypass_hooks_spec {α ρ : Type} [Inhabited ρ] (f : Sys → ρ × Sys) (s : Sys)
    (orig : α → ρ) (hooks : List (HookFn α ρ)) (fuel : Nat) (a : α) :
    (bypass_hooks f s).1 = (f { s with inHook := true }).1 ∧
    (bypass_hooks f s).2.inHook = s.inHook ∧
    (bypass_hooks f s).2.log = (f { s with inHook := true }).2.log ∧
    bypass_hooks (fun t => exportedTrampoline orig hooks fuel a t) s
      = (orig a, { s with log := s.log ++ [Event.orig] }) := by
  refine ⟨rfl, rfl, rfl, ?_⟩
  simp [bypass_hooks, exportedTrampoline, with_hook_protection, chain_orig, call_orig]

/-- Claim C6: an intercepted call made while the thread's reentrancy flag is
set (the state every handler body runs in) goes straight to the resolved
original: zero handlers of any registry execute.  The second conjunct runs
the full scenario: a registry whose handler internally calls an intercepted
function (with an arbitrary registry `hooks2` — the same or a different
function); the inner call contributes exactly one original-invocation and no
handler dispatches. -/
theorem reentrant_call_goes_to_orig {α ρ : Type} [Inhabited ρ] :
    (∀ (orig : α → ρ) (hooks : List (HookFn α ρ)) (fuel : Nat) (a : α)
        (l : List Event),
      exportedTrampoline orig hooks fuel a ⟨true, l⟩
        = (orig a, ⟨true, l ++ [Event.orig]⟩)) ∧
    (∀ (orig orig2 : α → ρ) (hooks2 : List (HookFn α ρ)) (fuel2 fuel : Nat)
        (a : α) (l : List Event),
      exportedTrampoline orig [nestedCallHook orig2 hooks2 fuel2] (fuel + 2) a
          ⟨false, l⟩
        = (orig a, ⟨false, l ++ [Event.hook 0, Event.orig, Event.orig]⟩)) := by
  constructor
  · intro orig hooks fuel a l
    simp [exportedTrampoline, with_hook_protection, chain_orig, call_orig]
  · intro orig orig2 hooks2 fuel2 fuel a l
    have h0 : Chain.call orig [nestedCallHook orig2 hooks2 fuel2] (fuel + 1 + 1) a
        Chain.new ⟨true, l⟩
        = (orig a, ⟨1⟩, ⟨true, l ++ [Event.hook 0, Event.orig, Event.orig]⟩) := by
      rw [Chain.call_step orig _ (fuel + 1) a Chain.new _ _ rfl]
      simp [nestedCallHook, exportedTrampoline, with_hook_protection, chain_orig,
        call_orig, Chain.new]
      rw [Chain.call_none orig _ fuel a ⟨1⟩ _ rfl]
      simp [chain_orig, call_orig]
    simp only [exportedTrampoline, with_hook_protection]
    norm_num
    rw [show fuel + 2 = fuel + 1 + 1 from rfl, h0]
    exact ⟨rfl, rfl⟩

/-- Folding `add_hook` over a sequence of handlers yields exactly that
sequence, in registration order. -/
theorem add_hook_foldl {α ρ : Type} (hs : List (HookFn α ρ)) :
    ∀ acc, hs.foldl (fun acc h => add_hook h acc) acc = acc ++ hs := by
  induction hs with
  | nil => intro acc; simp
  | cons h t ih =>
    intro acc
    rw [List.foldl_cons, ih (add_hook h acc)]
    simp [add_hook]

/-- The registry built by successive `add_hook` calls is the handler
sequence itself. -/
theorem registerAll_eq {α ρ : Type} (hs : List (HookFn α ρ)) :
    registerAll hs = hs := by
  simpa using add_hook_foldl hs []

/-- The identity pass-through handler is the `mkPass` handler with identity
argument and result transformations. -/
theorem pHook_eq_mkPass {α ρ : Type} : (pHook : HookFn α ρ) = mkPass id id := by
  funext a k c s
  rfl

/-- A trampoline call on a thread whose flag is clear enters the chain at
index 0 with the flag set, and clears the flag afterwards. -/
theorem exportedTrampoline_cold {α ρ : Type} [Inhabited ρ] (orig : α → ρ)
    (hooks : List (HookFn α ρ)) (fuel : Nat) (a : α) (l : List Event) :
    exportedTrampoline orig hooks fuel a ⟨false, l⟩
      = ((Chain.call orig hooks fuel a Chain.new ⟨true, l⟩).1,
         { (Chain.call orig hooks fuel a Chain.new ⟨true, l⟩).2.2 with
             inHook := false }) := rfl

/-- Running the chain from index `j` over a registry whose handlers from
position `j` on all call the continuation exactly once dispatches exactly the
handlers `j, j+1, …` in index order and then the original, once. -/
theorem Chain.call_mkPass_tail {α ρ : Type} [Inhabited ρ] (orig : α → ρ)
    (hooks : List (HookFn α ρ)) (d : Nat) :
    ∀ (j fuel : Nat) (a : α) (s : Sys),
      hooks.length = j + d → d ≤ fuel →
      (∀ i, j ≤ i → i < hooks.length →
        ∃ tr post, hooks[i]? = some (mkPass tr post)) →
      ∃ r, Chain.call orig hooks (fuel + 1) a ⟨j⟩ s
        = (r, ⟨hooks.length⟩,
           { s with log := s.log
               ++ ((List.range' j d).map Event.hook ++ [Event.orig]) }) := by
  induction d with
  | zero =>
    intro j fuel a s hlen hfuel _
    have hnone : hooks[j]? = none := List.getElem?_eq_none (by omega)
    refine ⟨orig a, ?_⟩
    rw [Chain.call_none orig hooks fuel a ⟨j⟩ s hnone]
    have hj : j = hooks.length := by omega
    subst hj
    simp [chain_orig, call_orig]
  | succ d ih =>
    intro j fuel a s hlen hfuel hall
    obtain ⟨tr, post, hget⟩ := hall j le_rfl (by omega)
    obtain ⟨g, rfl⟩ : ∃ g, fuel = g + 1 := ⟨fuel - 1, by omega⟩
    obtain ⟨r0, heq⟩ := ih (j + 1) g (tr a)
      { s with log := s.log ++ [Event.hook j] }
      (by omega) (by omega) (fun i hi hlt => hall i (by omega) hlt)
    refine ⟨post r0, ?_⟩
    rw [Chain.call_step orig hooks (g + 1) a ⟨j⟩ s _ hget]
    simp only [mkPass, heq]
    simp [List.range'_succ, List.append_assoc]

/-- Running the chain from index `j` over a registry whose handlers strictly
before position `m` (from `j` on) are pass-through and whose handler at `m`
short-circuits with `v` dispatches handlers `j, …, m` only and returns `v`:
no later handler and no original invocation. -/
theorem Chain.call_pass_then_const {α ρ : Type} [Inhabited ρ] (orig : α → ρ)
    (hooks : List (HookFn α ρ)) (m : Nat) (v : ρ)
    (hconst : hooks[m]? = some (cHook v)) (d : Nat) :
    ∀ (j fuel : Nat) (a : α) (s : Sys),
      m = j + d → d ≤ fuel →
      (∀ i, j ≤ i → i < m → hooks[i]? = some pHook) →
      Chain.call orig hooks (fuel + 1) a ⟨j⟩ s
        = (v, ⟨m + 1⟩,
           { s with log := s.log ++ (List.range' j (d + 1)).map Event.hook }) := by
  induction d with
  | zero =>
    intro j fuel a s hm hfuel _
    have hj : j = m := by omega
    subst hj
    rw [Chain.call_step orig hooks fuel a ⟨j⟩ s _ hconst]
    simp [cHook]
  | succ d ih =>
    intro j fuel a s hm hfuel hall
    have hget := hall j le_rfl (by omega)
    obtain ⟨g, rfl⟩ : ∃ g, fuel = g + 1 := ⟨fuel - 1, by omega⟩
    rw [Chain.call_step orig hooks (g + 1) a ⟨j⟩ s _ hget]
    simp only [pHook]
    rw [ih (j + 1) g a { s with log := s.log ++ [Event.hook j] }
      (by omega) (by omega) (fun i hi hlt => hall i (by omega) hlt)]
    simp [List.range'_succ, List.append_assoc]

/-- Claim C3: for every sequence of handlers registered one `add_hook` at a
time, each of which calls the chain continuation exactly once, a top-level
intercepted call dispatches the handlers in exactly registration order
(indices 0, 1, …, n-1) followed by exactly one invocation of the resolved
original implementation. -/
theorem chain_executes_in_registration_order {α ρ : Type} [Inhabited ρ]
    (orig : α → ρ) (ps : List ((α → α) × (ρ → ρ))) (a : α) (l : List Event) :
    ∃ r, exportedTrampoline orig
        (registerAll (ps.map fun p => mkPass p.1 p.2)) (ps.length + 1) a
        ⟨false, l⟩
      = (r, ⟨false,
          l ++ ((List.range' 0 ps.length).map Event.hook ++ [Event.orig])⟩) := by
  rw [registerAll_eq, exportedTrampoline_cold]
  obtain ⟨r, heq⟩ := Chain.call_mkPass_tail orig
    (ps.map fun p => mkPass p.1 p.2) ps.length 0 ps.length a ⟨true, l⟩
    (by simp) le_rfl
    (by
      intro i _ hi
      simp only [List.length_map] at hi
      exact ⟨ps[i].1, ps[i].2, by simp [List.getElem?_map, List.getElem?_eq_getElem hi]⟩)
  refine ⟨r, ?_⟩
  simp only [Chain.new]
  rw [heq]

/-- Claim C4: a handler that returns a value `v` without calling the chain
continuation makes the whole intercepted call return `v`; no handler
registered after it (here an arbitrary suffix `rest`) and not the original
implementation executes during that call. -/
theorem early_return_short_circuits {α ρ : Type} [Inhabited ρ] (orig : α → ρ)
    (m : Nat) (v : ρ) (rest : List (HookFn α ρ)) (a : α) (l : List Event) :
    exportedTrampoline orig (List.replicate m pHook ++ cHook v :: rest)
        (m + 2) a ⟨false, l⟩
      = (v, ⟨false, l ++ (List.range' 0 (m + 1)).map Event.hook⟩) := by
  rw [exportedTrampoline_cold]
  have hconst : (List.replicate m pHook ++ cHook v :: rest)[m]? = some (cHook v) := by
    rw [List.getElem?_append_right (by simp)]
    simp
  have hall : ∀ i, 0 ≤ i → i < m →
      (List.replicate m pHook ++ cHook v :: rest)[i]? = some pHook := by
    intro i _ hi
    rw [List.getElem?_append_left (by simp [hi])]
    simp [List.getElem?_replicate, hi]
  have h := Chain.call_pass_then_const orig _ m v hconst m 0 (m + 1) a ⟨true, l⟩
    (by omega) (by omega) hall
  simp only [Chain.new]
  rw [show m + 2 = m + 1 + 1 from rfl, h]

/-- Claim C2 (counterexample): over the registry [H1, H2] where H1 invokes
chain.call twice with the same arguments, the second invocation does not
re-execute H2: H2 is dispatched exactly once, not once per invocation, while
the original runs twice. -/
theorem chain_call_twice_cex :
    ((exportedTrampoline (fun n : Nat => n) [callTwiceHook, pHook] 5 7
        ⟨false, []⟩).2.log
      = [Event.hook 0, Event.hook 1, Event.orig, Event.orig]) ∧
    ¬ ((exportedTrampoline (fun n : Nat => n) [callTwiceHook, pHook] 5 7
        ⟨false, []⟩).2.log.count (Event.hook 1) = 2) := by
  decide

/-- Claim C2 (amended): a handler that invokes chain.call more than once
re-enters the chain at its current cursor position each time; because the
cursor is shared mutable state that the first invocation advanced past the
last hook, each later handler executes at most once, and every further
invocation runs only the original implementation again. -/
theorem chain_call_twice_resumes {α ρ : Type} [Inhabited ρ] (orig : α → ρ)
    (m : Nat) (a : α) (l : List Event) :
    exportedTrampoline orig (callTwiceHook :: List.replicate m pHook)
        (m + 3) a ⟨false, l⟩
      = (orig a,
         ⟨false, l ++ (Event.hook 0 :: ((List.range' 1 m).map Event.hook
             ++ [Event.orig, Event.orig]))⟩) := by
  rw [exportedTrampoline_cold]
  simp only [Chain.new]
  rw [show m + 3 = (m + 2) + 1 from rfl]
  rw [Chain.call_step orig _ (m + 2) a ⟨0⟩ _ callTwiceHook (by simp)]
  obtain ⟨r0, heq1⟩ := Chain.call_mkPass_tail orig
    (callTwiceHook :: List.replicate m pHook) m 1 (m + 1) a
    ⟨true, l ++ [Event.hook 0]⟩ (by simp [Nat.add_comm]) (by omega)
    (by
      intro i hi hlt
      refine ⟨id, id, ?_⟩
      rw [← pHook_eq_mkPass]
      simp only [List.length_cons, List.length_replicate] at hlt
      cases i with
      | zero => omega
      | succ i' =>
        simp [List.getElem?_cons_succ, List.getElem?_replicate]
        omega)
  have hlen : (callTwiceHook :: List.replicate m pHook : List (HookFn α ρ)).length
      = m + 1 := by simp
  have hnone : (callTwiceHook :: List.replicate m pHook : List (HookFn α ρ))[m + 1]? = none :=
    List.getElem?_eq_none (by simp)
  simp only [callTwiceHook]
  rw [show m + 2 = (m + 1) + 1 from rfl] at heq1 ⊢
  rw [heq1]
  simp only [hlen]
  rw [Chain.call_none orig _ (m + 1) a ⟨m + 1⟩ _ hnone]
  simp [chain_orig, call_orig, List.append_assoc]

/-! The block_reading example (src/examples/block_reading/src/lib.rs). -/

/-- The fixed message written by the example read hook
(src/examples/block_reading/src/lib.rs line 10): the 12 bytes of
b"No peeking!\n". -/
def block_read_message : List Nat :=
  [78, 111, 32, 112, 101, 101, 107, 105, 110, 103, 33, 10]

/-- Embeds `block_read_hook` (src/examples/block_reading/src/lib.rs lines
9-17): let len = count.min(message.len()), overwrite the first `len` bytes
of the caller's buffer with the first `len` message bytes, and return
`count as isize`.  The buffer is modelled as its byte list; `_fd` and the
chain argument are unused exactly as in the source. -/
def block_read_hook (_fd : Int) (buf : List Nat) (count : Nat) : List Nat × Int :=
  let message := block_read_message
  let len := min count message.length
  (message.take len ++ buf.drop len, (count : Int))

/-- Claim C1 (counterexample): a read of 1024 bytes does not return the
written byte count 12 — `block_read_hook` returns `count as isize`, so the
call on a 1024-byte buffer returns 1024. -/
theorem block_read_return_cex :
    (block_read_hook 0 (List.replicate 1024 0) 1024).2 = 1024 ∧
    ¬ ((block_read_hook 0 (List.replicate 1024 0) 1024).2 = 12) := by
  exact ⟨by decide, by decide⟩

/-- Claim C1 (amended): for every requested length `count` that fits the
caller's buffer, exactly min(count, 12) bytes of the fixed 12-byte message
are written at the start of the buffer, the rest of the buffer is left
untouched, and the call returns `count` — the requested length, not the
written byte count.  A 1024-byte request writes 12 bytes and returns 1024; a
5-byte request writes 5 bytes and returns 5. -/
theorem block_read_hook_spec (fd : Int) (count : Nat) (buf : List Nat)
    (h : count ≤ buf.length) :
    (block_read_hook fd buf count).1.take (min count 12)
        = block_read_message.take (min count 12) ∧
    (block_read_hook fd buf count).1.drop (min count 12)
        = buf.drop (min count 12) ∧
    (block_read_hook fd buf count).1.length = buf.length ∧
    (block_read_hook fd buf count).2 = (count : Int) := by
  have hb : (block_read_hook fd buf count).1
      = block_read_message.take (min count 12) ++ buf.drop (min count 12) := rfl
  have hlt : (block_read_message.take (min count 12)).length = min count 12 := by
    simp [List.length_take, block_read_message]
  refine ⟨?_, ?_, ?_, rfl⟩
  · rw [hb, List.take_left' hlt]
  · rw [hb, List.drop_left' hlt]
  · rw [hb]
    simp [List.length_take, block_read_message]
    omega

/-- Witness for the amended claim C1 at the 5-byte buffer of the spec's
scenario. -/
theorem block_read_hook_spec_witness :
    (5 : Nat) ≤ (List.replicate 5 (0 : Nat)).length ∧
    ((block_read_hook 0 (List.replicate 5 0) 5).1.take (min 5 12)
        = block_read_message.take (min 5 12) ∧
      (block_read_hook 0 (List.replicate 5 0) 5).1.drop (min 5 12)
        = (List.replicate 5 (0 : Nat)).drop (min 5 12) ∧
      (block_read_hook 0 (List.replicate 5 0) 5).1.length
        = (List.replicate 5 (0 : Nat)).length ∧
      (block_read_hook 0 (List.replicate 5 0) 5).2 = ((5 : Nat) : Int)) :=
  ⟨by decide, block_read_hook_spec 0 5 (List.replicate 5 0) (by decide)⟩

/-! The lazy resolution cache inside call_orig (src/src/lib.rs lines
120-138). -/

/-- Models the `static REAL: LazyLock<AtomicPtr<c_void>>` inside `call_orig`
(src/src/lib.rs lines 123-131).  `ptr` is the cache contents; `lookups`
counts how many times the dynamic-loader lookup (`dlsym(RTLD_NEXT, name)`)
has been performed — the spec's counting stub. -/
structure RealCache where
  ptr : Option Nat
  lookups : Nat
  deriving DecidableEq, Repr

/-- One access to the `REAL` cache, as `call_orig` performs on every
invocation: on first use run the loader lookup `d` and cache its result
(the `LazyLock` initialization, which the runtime performs exactly once even
under concurrent first use); afterwards return the cached pointer without a
new lookup. -/
def resolveReal (d : Unit → Nat) (rc : RealCache) : Nat × RealCache :=
  match rc.ptr with
  | some p => (p, rc)
  | none => (d (), { ptr := some (d ()), lookups := rc.lookups + 1 })

/-- Runs `n` successive `call_orig`-style cache accesses, returning the
pointers they used, in order. -/
def resolveRealRun (d : Unit → Nat) : Nat → RealCache → List Nat × RealCache
  | 0, rc => ([], rc)
  | n + 1, rc =>
    let r := resolveReal d rc
    let rs := resolveRealRun d n r.2
    (r.1 :: rs.1, rs.2)

/-- Once the cache is filled, further accesses return the cached pointer and
never perform another lookup. -/
theorem resolveRealRun_cached (d : Unit → Nat) (n : Nat) :
    ∀ (p k : Nat), resolveRealRun d n ⟨some p, k⟩ = (List.replicate n p, ⟨some p, k⟩) := by
  induction n with
  | zero => intro p k; rfl
  | succ n ih => intro p k; simp [resolveRealRun, resolveReal, ih, List.replicate_succ]

/-- Claim C9: starting from the unresolved state, any number of `call_orig`
invocations performs the dynamic-loader lookup exactly once: the first
access runs and caches it, and every later access returns the same cached
pointer with the lookup count still 1. -/
theorem resolveReal_once (d : Unit → Nat) (n : Nat) :
    resolveRealRun d (n + 1) ⟨none, 0⟩
      = (List.replicate (n + 1) (d ()), ⟨some (d ()), 1⟩) := by
  simp [resolveRealRun, resolveReal, resolveRealRun_cached d n (d ()) 1,
    List.replicate_succ]

end DylibHook
